import Mathlib

/-!
Verification of the blockchain-analyzer backend against its specification.

This file gives a shallow embedding, in Lean 4, of the core algorithms of the
backend (the incremental clustering engine, the trace endpoint post-processing,
the compliance severity evaluation, the anomaly-score normalization and the
address normalization helpers), translated from the Python source under
src/backend/app, together with theorems settling the specification claims.

Conventions of the embedding:
* the external Neo4j graph store is modelled as explicit data: a fixed graph
  (node list plus directed SENT edge list) and a mutable scalar field per
  address (the cluster assignment), threaded through the functions;
* Cypher queries are translated to the list computations they perform:
  a variable-length undirected pattern match of depth d becomes an iterated
  neighborhood closure of depth d, LIMIT becomes List.take, coalesce-style
  conditional SET becomes a set-if-absent functional update;
* uuid4 cluster-id generation is modelled by a counter producing a fresh
  natural number per generated identifier (globally unique, as the spec
  requires of the uuid);
* Python floats are modelled as rationals; Python None as Option.
-/

/-! ## Clustering engine (src/backend/app/utils/clustering.py) -/

/-- MAX_CLUSTER_DEPTH constant from clustering.py. -/
def MAX_CLUSTER_DEPTH : Nat := 6

/-- The graph held by the store: address nodes (in the store's enumeration
order, which fixes the arbitrary order in which unclustered addresses are
returned) and directed SENT edges (sender, receiver). -/
structure Graph where
  addrs : List String
  edges : List (String × String)

/-- The mutable cluster_id field of each address node; cluster identifiers are
modelled as natural numbers (fresh uuid4 values become fresh counter values). -/
def Clustering : Type := String → Option Nat

/-- Undirected SENT-adjacency as returned by traversing one step of the
pattern (start)-[:SENT]-(member): each edge is usable in both directions. -/
def neighborsOf (g : Graph) (a : String) : List String :=
  g.edges.filterMap fun e =>
    if e.1 = a then some e.2 else if e.2 = a then some e.1 else none

/-- Nodes reachable from a by an undirected SENT path of length at most d
(the set matched by (start)-[:SENT*0..d]-(member) before the label filter),
kept duplicate-free as RETURN DISTINCT does. -/
def ball (g : Graph) (a : String) : Nat → List String
  | 0 => [a]
  | d + 1 =>
    let prev := ball g a d
    (prev.flatMap (neighborsOf g)).union prev

/-- _component_members: the distinct Address nodes reachable from the seed by
an undirected SENT path of length 0..MAX_CLUSTER_DEPTH; empty when the seed is
not an Address node in the store. -/
def componentMembers (g : Graph) (seed : String) : List String :=
  if seed ∈ g.addrs then
    (ball g seed MAX_CLUSTER_DEPTH).filter (fun m => decide (m ∈ g.addrs))
  else []

/-- _assign_cluster: MATCH (a:Address) WHERE a.address IN members
SET a.cluster_id = coalesce(a.cluster_id, cid); the early return on an empty
member list is kept from the Python. -/
def assignClusterRun (g : Graph) (c : Clustering) (members : List String)
    (cid : Nat) : Clustering :=
  if members.isEmpty then c
  else fun a =>
    if a ∈ g.addrs ∧ a ∈ members then some ((c a).getD cid) else c a

/-- The member list a single loop iteration of assign_clusters works on:
the component of the seed, or the seed alone when the component query
returned nothing. -/
def seedMembers (g : Graph) (seed : String) : List String :=
  let ms := componentMembers g seed
  if ms.isEmpty then [seed] else ms

/-- One iteration of the inner for loop of assign_clusters: compute the
component of one pending address, draw a fresh cluster id (the counter value
cid) and assign it set-if-absent; the iteration reports len(cluster_members)
as its contribution to the running total. -/
def processSeed (g : Graph) (c : Clustering) (cid : Nat) (seed : String) :
    Clustering × Nat :=
  (assignClusterRun g c (seedMembers g seed) cid, (seedMembers g seed).length)

/-- The inner for loop of assign_clusters over one fetched batch; returns the
updated store state, the next fresh-identifier counter value, and the total
this batch added to assigned_total. -/
def processPending (g : Graph) : Clustering → Nat → List String → Clustering × Nat × Nat
  | c, ctr, [] => (c, ctr, 0)
  | c, ctr, seed :: rest =>
    let p := processSeed g c ctr seed
    let q := processPending g p.1 (ctr + 1) rest
    (q.1, q.2.1, p.2 + q.2.2)

/-- _fetch_unclustered_addresses: up to limit addresses whose cluster_id is
null, in the store's enumeration order. -/
def fetchUnclustered (g : Graph) (c : Clustering) (limit : Nat) : List String :=
  (g.addrs.filter fun a => (c a).isNone).take limit

/-- The while loop of assign_clusters, with explicit fuel standing for the
(finite) number of loop iterations the store can sustain; none models a run
that would not have terminated within the fuel. -/
def runLoop (g : Graph) (batchSize : Nat) :
    Nat → Clustering → Nat → Nat → Option (Clustering × Nat)
  | 0, _, _, _ => none
  | fuel + 1, c, ctr, total =>
    let pending := fetchUnclustered g c batchSize
    if pending.isEmpty then some (c, total)
    else
      let r := processPending g c ctr pending
      runLoop g batchSize fuel r.1 r.2.1 (total + r.2.2)

/-- assign_clusters: repeatedly fetch a batch of unclustered addresses and
cluster each of them, until a fetch comes back empty; returns the final store
state and the value of assigned_total.  One unit of fuel per address plus one
final iteration is enough for every terminating run (each non-final iteration
clusters at least one address). -/
def assign_clusters (g : Graph) (c : Clustering) (batchSize : Nat) :
    Option (Clustering × Nat) :=
  runLoop g batchSize (g.addrs.length + 1) c 0 0

/-- The all-null clustering state: no address has been assigned yet. -/
def noClusters : Clustering := fun _ => none

/-- Two addresses connected by a SENT edge, in either direction. -/
def Adj (g : Graph) (u v : String) : Prop :=
  (u, v) ∈ g.edges ∨ (v, u) ∈ g.edges

/-- An address with no SENT edges at all. -/
def Isolated (g : Graph) (a : String) : Bool :=
  g.edges.all fun e => !(e.1 == a) && !(e.2 == a)

/-- Store well-formedness: every SENT edge connects Address nodes that exist
in the store (guaranteed by ingestion, which MERGEs both endpoints). -/
def EdgesClosed (g : Graph) : Bool :=
  g.edges.all fun e => e.1 ∈ g.addrs && e.2 ∈ g.addrs

/-- The bounded-depth component query is exact on this graph: one more hop
beyond MAX_CLUSTER_DEPTH reaches nothing new, i.e. every true connected
component has diameter at most the depth bound. -/
def DepthClosed (g : Graph) : Bool :=
  g.addrs.all fun a =>
    (ball g a (MAX_CLUSTER_DEPTH + 1)).all fun v => v ∈ ball g a MAX_CLUSTER_DEPTH

/-- Number of addresses that went from unclustered to clustered between two
store states. -/
def newlyAssigned (g : Graph) (c c' : Clustering) : Nat :=
  g.addrs.countP fun a => (c a).isNone && (c' a).isSome

/-! ## Trace endpoint (src/backend/app/api/trace.py, models/trace.py) -/

/-- Errors at the trace endpoint boundary: a pydantic request-validation
failure (HTTP 422), a "No path found" response (HTTP 404), or a wrapped
store failure (HTTP 502). -/
inductive TraceError where
  | validationError
  | notFound
  | storeError
deriving DecidableEq

/-- TraceRequest field constraint on max_hops: Field(4, ge=1, le=8); pydantic
rejects a request whose max_hops lies outside this range before any handler
code runs. -/
def traceRequestValidHops (h : Int) : Bool :=
  1 ≤ h && h ≤ 8

/-- The hop-guard from _normalize_request: max(1, min(8, payload.max_hops)). -/
def clampMaxHops (h : Int) : Int := max 1 (min 8 h)

/-- The hop bound the trace engine effectively runs with, for a requested
max_hops value: pydantic validation first, then the _normalize_request guard. -/
def effectiveMaxHops (h : Int) : Except TraceError Int :=
  if traceRequestValidHops h then Except.ok (clampMaxHops h) else Except.error .validationError

/-- A node record inside a returned path (labels plus the properties
trace.py reads). -/
structure NodeRec where
  labels : List String
  address : Option String
  cluster_id : Option String
  risk_score : Option ℚ
  is_anomaly : Option Bool
  is_sanctioned : Option Bool
deriving DecidableEq

/-- A relationship record inside a returned path (type, endpoint addresses
and the properties trace.py reads). -/
structure RelRec where
  rtype : String
  startAddress : Option String
  endAddress : Option String
  hash : Option String
  value_wei : Option Int
  timestamp : Option Int
  block_number : Option Int
deriving DecidableEq

/-- One path record: its ordered node list and ordered relationship list. -/
structure PathRec where
  nodes : List NodeRec
  rels : List RelRec
deriving DecidableEq

/-- The TraceNode pydantic model. -/
structure TraceNode where
  address : String
  cluster_id : Option String
  risk_score : Option ℚ
  is_anomaly : Option Bool
  is_sanctioned : Option Bool
deriving DecidableEq

/-- The TraceEdge pydantic model. -/
structure TraceEdge where
  tx_hash : String
  source : String
  target : String
  value_wei : Option Int
  timestamp : Option Int
  block_number : Option Int
deriving DecidableEq

/-- Lookup in the insertion-ordered node dictionary of _paths_to_graph. -/
def lookupNode (ns : List (String × TraceNode)) (a : String) : Option TraceNode :=
  (ns.find? fun p => p.1 == a).map (·.2)

/-- Processing of one path node in _paths_to_graph: skip non-Address labels,
skip falsy (missing or empty) addresses, insert into the dictionary only if
the address is not yet a key (first occurrence wins, insertion order kept). -/
def insertNode (ns : List (String × TraceNode)) (n : NodeRec) : List (String × TraceNode) :=
  if "Address" ∈ n.labels then
    match n.address with
    | none => ns
    | some a =>
      if a.isEmpty then ns
      else if (lookupNode ns a).isSome then ns
      else ns ++ [(a, ⟨a, n.cluster_id, n.risk_score, n.is_anomaly, n.is_sanctioned⟩)]
  else ns

/-- Processing of one path relationship in _paths_to_graph: skip types other
than SENT, skip falsy endpoint addresses, and append unconditionally (edges
are never deduplicated). -/
def insertEdge (es : List TraceEdge) (r : RelRec) : List TraceEdge :=
  if r.rtype = "SENT" then
    match r.startAddress, r.endAddress with
    | some s, some t =>
      if s.isEmpty || t.isEmpty then es
      else es ++ [⟨(r.hash).getD "", s, t, r.value_wei, r.timestamp, r.block_number⟩]
    | _, _ => es
  else es

/-- _paths_to_graph processing of one record: record.get("path") may be
missing (modelled by none and skipped), otherwise its nodes then its
relationships are folded into the accumulators. -/
def processPathRec (acc : List (String × TraceNode) × List TraceEdge)
    (rec : Option PathRec) : List (String × TraceNode) × List TraceEdge :=
  match rec with
  | none => acc
  | some p => (p.nodes.foldl insertNode acc.1, p.rels.foldl insertEdge acc.2)

/-- _paths_to_graph: merge all returned path records into one deduplicated
node dictionary and one edge list. -/
def pathsToGraph (records : List (Option PathRec)) :
    List (String × TraceNode) × List TraceEdge :=
  records.foldl processPathRec ([], [])

/-- Metadata of a successful trace response. -/
structure TraceMeta where
  path_count : Nat
  edge_count : Nat
  node_count : Nat
deriving DecidableEq

/-- The tail of trace_route after the store query: convert the records to a
subgraph, answer 404 when the node dictionary came out empty, otherwise a
response with nodes, edges and counts. -/
def traceRouteResult (records : List (Option PathRec)) :
    Except TraceError (List (String × TraceNode) × List TraceEdge × TraceMeta) :=
  let g := pathsToGraph records
  if g.1.isEmpty then Except.error .notFound
  else Except.ok (g.1, g.2, ⟨records.length, g.2.length, g.1.length⟩)

/-- A path record with its non-Address nodes and non-SENT relationships
removed; used to state that _paths_to_graph silently skips exactly these. -/
def restrictPathRec (rec : Option PathRec) : Option PathRec :=
  match rec with
  | none => none
  | some p => some ⟨p.nodes.filter (fun n => decide ("Address" ∈ n.labels)),
                    p.rels.filter (fun r => r.rtype == "SENT")⟩

/-! ## Compliance severity (src/backend/app/utils/compliance.py) -/

/-- The four severity tiers. -/
inductive Severity where
  | LOW
  | ELEVATED
  | MEDIUM
  | HIGH
deriving DecidableEq

/-- The CASE expression of evaluate_alert_severity:
coalesce(is_sanctioned, false) decides HIGH outright, otherwise
coalesce(risk_score, 0.0) is compared against 0.95, 0.75 and 0.5 in order. -/
def evaluate_severity (is_sanctioned : Option Bool) (risk_score : Option ℚ) : Severity :=
  if is_sanctioned.getD false then .HIGH
  else if (0.95 : ℚ) ≤ risk_score.getD 0 then .HIGH
  else if (0.75 : ℚ) ≤ risk_score.getD 0 then .MEDIUM
  else if (0.5 : ℚ) ≤ risk_score.getD 0 then .ELEVATED
  else .LOW

/-- The scalar fields of an Address node that severity evaluation reads and
writes. -/
structure AddrRec where
  is_sanctioned : Option Bool
  risk_score : Option ℚ
  alert_severity : Option Severity
deriving DecidableEq

/-- The per-address effect of the severity query: SET a.alert_severity to the
computed CASE value, leaving the inputs untouched. -/
def evaluateSeverityStep (a : AddrRec) : AddrRec :=
  { a with alert_severity := some (evaluate_severity a.is_sanctioned a.risk_score) }

/-- evaluate_alert_severity over the whole store: every address is updated,
and count(a) - the number of addresses - is returned. -/
def evaluateSeverityAll (l : List AddrRec) : List AddrRec × Nat :=
  (l.map evaluateSeverityStep, l.length)

/-! ## Anomaly score normalization (src/backend/app/ml/anomaly.py) -/

/-- float(np.max(raw_scores)); the raw score list is nonempty whenever this
runs (the empty-dataframe case returns earlier). -/
def scoreMax (raw : List ℚ) : ℚ :=
  match raw with
  | [] => 0
  | r :: rs => rs.foldl max r

/-- float(np.min(raw_scores)). -/
def scoreMin (raw : List ℚ) : ℚ :=
  match raw with
  | [] => 0
  | r :: rs => rs.foldl min r

/-- score_range = max(score_max - score_min, 1e-9). -/
def scoreRange (raw : List ℚ) : ℚ :=
  max (scoreMax raw - scoreMin raw) (1 / 1000000000)

/-- np.clip(x, 0.0, 1.0). -/
def clip01 (x : ℚ) : ℚ := min (max x 0) 1

/-- risk_scores = np.clip((score_max - raw_scores) / score_range, 0.0, 1.0). -/
def riskScores (raw : List ℚ) : List ℚ :=
  raw.map fun r => clip01 ((scoreMax raw - r) / scoreRange raw)

/-! ## Address normalization (src/backend/app/utils/addresses.py and
utils/compliance.py _normalize_addresses) -/

/-- Python str.strip() default whitespace test, for the character set the
addresses can contain. -/
def isPySpace (c : Char) : Bool := c.isWhitespace

/-- str.strip(): drop whitespace from both ends; strings are modelled as
character lists. -/
def pyStrip (s : List Char) : List Char :=
  ((s.dropWhile isPySpace).reverse.dropWhile isPySpace).reverse

/-- The character class [a-fA-F0-9] of ADDRESS_PATTERN. -/
def isHexDigitA (c : Char) : Bool :=
  ('0' ≤ c && c ≤ '9') || ('a' ≤ c && c ≤ 'f') || ('A' ≤ c && c ≤ 'F')

/-- ADDRESS_PATTERN.fullmatch: the regex 0x[a-fA-F0-9]X40 anchored at both
ends (42 characters, 0x plus 40 hex digits). -/
def addressPattern (s : List Char) : Bool :=
  match s with
  | '0' :: 'x' :: rest => rest.length == 40 && rest.all isHexDigitA
  | _ => false

/-- str.lower() on the character-list model. -/
def toLowerL (s : List Char) : List Char := s.map Char.toLower

/-- normalize_eth_address: strip, validate against ADDRESS_PATTERN, return
lowercased; none models the ValueError raised on a failed validation (the
None-input ValueError branch is outside the string model). -/
def normalize_eth_address (s : List Char) : Option (List Char) :=
  let address := pyStrip s
  if addressPattern address then some (toLowerL address) else none

/-- _normalize_addresses from compliance.py: falsy entries are skipped, each
remaining entry is normalized, entries raising ValueError are skipped. -/
def normalizeAddresses (batch : List (List Char)) : List (List Char) :=
  batch.filterMap fun raw =>
    if raw.isEmpty then none else normalize_eth_address raw

/-! ## Concrete stores used to instantiate and to refute claims -/

/-- An undirected path of eight addresses a0 - a1 - ... - a7: one true
connected component of diameter 7, one hop beyond MAX_CLUSTER_DEPTH. -/
def gPath8 : Graph :=
  { addrs := ["a0", "a1", "a2", "a3", "a4", "a5", "a6", "a7"],
    edges := [("a0", "a1"), ("a1", "a2"), ("a2", "a3"), ("a3", "a4"),
              ("a4", "a5"), ("a5", "a6"), ("a6", "a7")] }

/-- Two addresses joined by one SENT edge. -/
def gPair : Graph := { addrs := ["b0", "b1"], edges := [("b0", "b1")] }

/-- Two connected addresses plus one isolated address. -/
def gTri : Graph :=
  { addrs := ["c0", "c1", "c2"], edges := [("c0", "c1")] }

/-- A store state for gPair in which b0 is already clustered with id 5. -/
def cPairPre : Clustering := fun a => if a = "b0" then some 5 else none

/-! ## Invariants used to reason about assign_clusters -/

/-- Adjacent addresses always agree on their cluster_id field (both still
null, or both carrying the same identifier). -/
def AdjInv (g : Graph) (c : Clustering) : Prop :=
  ∀ u v, Adj g u v → c u = c v

/-- Every assigned cluster identifier was produced by an already consumed
value of the fresh-identifier counter. -/
def IdsBelow (c : Clustering) (ctr : Nat) : Prop :=
  ∀ a k, c a = some k → k < ctr

/-- The address a is either still unclustered or holds a cluster identifier
that no other address holds. -/
def SingletonInv (a : String) (c : Clustering) : Prop :=
  c a = none ∨ ∃ k, c a = some k ∧ ∀ b, c b = some k → b = a

/-! ## Concrete path records used to instantiate the trace claims -/

/-- An Address node for 0xaa carrying cluster_id cl1. -/
def nodeAA1 : NodeRec := ⟨["Address"], some "0xaa", some "cl1", none, none, none⟩

/-- A second occurrence of 0xaa carrying different attributes (cluster cl2). -/
def nodeAA2 : NodeRec := ⟨["Address"], some "0xaa", some "cl2", none, none, none⟩

/-- An Address node for 0xbb. -/
def nodeBB : NodeRec := ⟨["Address"], some "0xbb", none, none, none, none⟩

/-- A node that is not labeled Address. -/
def nodeTx : NodeRec := ⟨["Transaction"], some "0xcc", none, none, none, none⟩

/-- A SENT relationship from 0xaa to 0xbb. -/
def relAB : RelRec :=
  ⟨"SENT", some "0xaa", some "0xbb", some "0xh1", some 123, some 1680000000, some 77⟩

/-- A path containing 0xaa (first-occurrence attributes) and 0xbb with one
SENT edge. -/
def pathAB : PathRec := ⟨[nodeAA1, nodeBB], [relAB]⟩

/-- The same path shape but with 0xaa carrying different attributes. -/
def pathAB2 : PathRec := ⟨[nodeAA2, nodeBB], [relAB]⟩

/-- A path whose only node is not labeled Address but whose relationship is
a valid SENT edge: it merges to a zero-node, one-edge subgraph. -/
def pathNoAddress : PathRec := ⟨[nodeTx], [relAB]⟩

/-- A mixed-case, well-formed 42-character Ethereum address. -/
def addrV : List Char := "0xAbCdEf0123456789aBcDeF0123456789abcdef01".toList

/-! ## Lemmas about the clustering embedding -/

/-- Unfolding the while loop one iteration at a time. -/
theorem runLoop_succ (g : Graph) (bs fuel : Nat) (c : Clustering) (ctr total : Nat) :
    runLoop g bs (fuel + 1) c ctr total =
      if (fetchUnclustered g c bs).isEmpty then some (c, total)
      else
        runLoop g bs fuel (processPending g c ctr (fetchUnclustered g c bs)).1
          (processPending g c ctr (fetchUnclustered g c bs)).2.1
          (total + (processPending g c ctr (fetchUnclustered g c bs)).2.2) := rfl

/-- What one _assign_cluster write can do to one address: leave its
cluster_id alone, or, when it is null and the address is a matched member,
set it to the (fresh) cluster id. -/
theorem assignClusterRun_cases (g : Graph) (c : Clustering) (members : List String)
    (cid : Nat) (a : String) :
    assignClusterRun g c members cid a = c a ∨
      (c a = none ∧ a ∈ members ∧ a ∈ g.addrs ∧
        assignClusterRun g c members cid a = some cid) := by
  unfold assignClusterRun
  by_cases he : members.isEmpty
  · simp [he]
  · by_cases hc : a ∈ g.addrs ∧ a ∈ members
    · cases hca : c a with
      | none =>
        right
        refine ⟨rfl, hc.2, hc.1, ?_⟩
        simp [he, hc, hca]
      | some k => left; simp [he, hc, hca]
    · left; simp [he, hc]

/-- Set-if-absent: an already assigned cluster_id is never overwritten by
one write. -/
theorem assignClusterRun_keep (g : Graph) (c : Clustering) (members : List String)
    (cid : Nat) (a : String) (k : Nat) (hk : c a = some k) :
    assignClusterRun g c members cid a = some k := by
  rcases assignClusterRun_cases g c members cid a with h | ⟨hn, _⟩
  · rw [h, hk]
  · rw [hn] at hk; cases hk

/-- Positive evaluation of one write: a matched null member receives the id. -/
theorem assignClusterRun_sets (g : Graph) (c : Clustering) (members : List String)
    (cid : Nat) (a : String) (ha : a ∈ g.addrs) (hm : a ∈ members) :
    assignClusterRun g c members cid a = some ((c a).getD cid) := by
  have he : members.isEmpty = false := by
    cases members with
    | nil => cases hm
    | cons x xs => rfl
  unfold assignClusterRun
  simp [he, ha, hm]

/-- Negative evaluation of one write: an unmatched address is untouched. -/
theorem assignClusterRun_skip (g : Graph) (c : Clustering) (members : List String)
    (cid : Nat) (a : String) (h : ¬(a ∈ g.addrs ∧ a ∈ members)) :
    assignClusterRun g c members cid a = c a := by
  unfold assignClusterRun
  by_cases he : members.isEmpty
  · simp [he]
  · simp [he, h]

/-- processSeed never overwrites an assigned cluster_id. -/
theorem processSeed_keep (g : Graph) (c : Clustering) (cid : Nat) (seed a : String)
    (k : Nat) (hk : c a = some k) : (processSeed g c cid seed).1 a = some k :=
  assignClusterRun_keep g c (seedMembers g seed) cid a k hk

/-- The batch loop never overwrites an assigned cluster_id. -/
theorem processPending_keep (g : Graph) (pending : List String) (c : Clustering)
    (ctr : Nat) (a : String) (k : Nat) (hk : c a = some k) :
    (processPending g c ctr pending).1 a = some k := by
  induction pending generalizing c ctr with
  | nil => exact hk
  | cons seed rest ih =>
    exact ih (processSeed g c ctr seed).1 (ctr + 1) (processSeed_keep g c ctr seed a k hk)

/-- The while loop never overwrites an assigned cluster_id. -/
theorem runLoop_keep (g : Graph) (bs : Nat) (fuel : Nat) (c : Clustering)
    (ctr total : Nat) (p : Clustering × Nat) (h : runLoop g bs fuel c ctr total = some p)
    (a : String) (k : Nat) (hk : c a = some k) : p.1 a = some k := by
  induction fuel generalizing c ctr total with
  | zero => cases h
  | succ fuel ih =>
    rw [runLoop_succ] at h
    by_cases hp : (fetchUnclustered g c bs).isEmpty
    · rw [if_pos hp] at h
      cases h
      exact hk
    · rw [if_neg hp] at h
      exact ih _ _ _ h (processPending_keep g _ c ctr a k hk)

/-- A successful while loop can only have stopped because its last fetch of
unclustered addresses came back empty. -/
theorem runLoop_final_fetch (g : Graph) (bs : Nat) (fuel : Nat) (c : Clustering)
    (ctr total : Nat) (p : Clustering × Nat)
    (h : runLoop g bs fuel c ctr total = some p) :
    fetchUnclustered g p.1 bs = [] := by
  induction fuel generalizing c ctr total with
  | zero => cases h
  | succ fuel ih =>
    rw [runLoop_succ] at h
    by_cases hp : (fetchUnclustered g c bs).isEmpty
    · rw [if_pos hp] at h
      cases h
      exact List.isEmpty_iff.mp hp
    · rw [if_neg hp] at h
      exact ih _ _ _ h

/-- With a positive batch size, an empty fetch means every address in the
store is clustered. -/
theorem fetch_empty_all_clustered (g : Graph) (c : Clustering) (bs : Nat)
    (hbs : 1 ≤ bs) (h : fetchUnclustered g c bs = []) :
    ∀ a ∈ g.addrs, (c a).isSome := by
  intro a ha
  unfold fetchUnclustered at h
  rcases List.take_eq_nil_iff.mp h with h0 | hfil
  · omega
  · have := List.filter_eq_nil_iff.mp hfil a ha
    cases hca : c a with
    | none => exact absurd (by simp [hca]) this
    | some k => rfl

/-- Claim C4: cluster_id is write-once.  Whatever cluster_id an address holds
when an assign_clusters run starts, it still holds it when the run returns:
every write of the run uses set-if-absent semantics, so only addresses whose
cluster_id is null ever receive the fresh identifier. -/
theorem cluster_id_write_once (g : Graph) (c : Clustering) (bs : Nat)
    (p : Clustering × Nat) (h : assign_clusters g c bs = some p)
    (a : String) (k : Nat) (hk : c a = some k) : p.1 a = some k :=
  runLoop_keep g bs (g.addrs.length + 1) c 0 0 p h a k hk

/-- Witness for cluster_id_write_once: in gPair with b0 already carrying
cluster id 5, a full run leaves b0 at id 5. -/
theorem cluster_id_write_once_witness :
    ∃ p, assign_clusters gPair cPairPre 50 = some p ∧ p.1 "b0" = some 5 := by
  have hs : (assign_clusters gPair cPairPre 50).isSome := by decide
  exact ⟨_, (Option.some_get hs).symm,
    cluster_id_write_once gPair cPairPre 50 _ (Option.some_get hs).symm "b0" 5 (by decide)⟩

/-- Claim C5: assign_clusters is convergent under re-invocation.  A
successful run with a positive batch size leaves no address unclustered; an
immediately following run over the unchanged graph fetches no pending
addresses and returns an assigned count of 0 with the store state unchanged;
and the run only ever touches addresses that were still unclustered when it
started. -/
theorem assign_clusters_convergent (g : Graph) (c : Clustering) (bs : Nat)
    (p : Clustering × Nat) (h : assign_clusters g c bs = some p) (hbs : 1 ≤ bs) :
    (∀ a ∈ g.addrs, (p.1 a).isSome) ∧
      fetchUnclustered g p.1 bs = [] ∧
      assign_clusters g p.1 bs = some (p.1, 0) ∧
      (∀ a k, c a = some k → p.1 a = some k) := by
  have hfetch : fetchUnclustered g p.1 bs = [] :=
    runLoop_final_fetch g bs (g.addrs.length + 1) c 0 0 p h
  refine ⟨fetch_empty_all_clustered g p.1 bs hbs hfetch, hfetch, ?_, ?_⟩
  · unfold assign_clusters
    rw [runLoop_succ, hfetch]
    simp
  · exact fun a k hk => cluster_id_write_once g c bs p h a k hk

/-- Witness for assign_clusters_convergent: after a successful run on gPair
the immediate rerun returns the same state with assigned count 0. -/
theorem assign_clusters_convergent_witness :
    ∃ p, assign_clusters gPair noClusters 50 = some p ∧
      assign_clusters gPair p.1 50 = some (p.1, 0) := by
  have hs : (assign_clusters gPair noClusters 50).isSome := by decide
  exact ⟨_, (Option.some_get hs).symm,
    (assign_clusters_convergent gPair noClusters 50 _ (Option.some_get hs).symm
      (by decide)).2.2.1⟩

/-- Counting helper: a predicate implied by the union of two others is
counted by at most the sum of their counts. -/
theorem countP_le_add_of_imp (l : List String) (p q r : String → Bool)
    (h : ∀ a ∈ l, p a = true → q a = true ∨ r a = true) :
    l.countP p ≤ l.countP q + l.countP r := by
  induction l with
  | nil => simp
  | cons x xs ih =>
    have hx := h x (List.mem_cons_self x xs)
    have ihx := ih fun a ha hp => h a (List.mem_cons_of_mem x ha) hp
    rw [List.countP_cons, List.countP_cons, List.countP_cons]
    by_cases hpx : p x = true
    · rcases hx hpx with hq | hr
      · simp [hpx, hq]; omega
      · simp [hpx, hr]; omega
    · have : p x = false := by simp [hpx]
      simp [this]; omega

/-- No address is newly assigned between a state and itself. -/
theorem newlyAssigned_self (g : Graph) (c : Clustering) : newlyAssigned g c c = 0 := by
  unfold newlyAssigned
  rw [List.countP_eq_zero]
  intro a _
  cases c a <;> simp

/-- Newly assigned across two steps is bounded by the per-step counts. -/
theorem newlyAssigned_triangle (g : Graph) (c c2 c3 : Clustering) :
    newlyAssigned g c c3 ≤ newlyAssigned g c c2 + newlyAssigned g c2 c3 := by
  unfold newlyAssigned
  refine countP_le_add_of_imp g.addrs _ _ _ ?_
  intro a _ hp
  simp only [Bool.and_eq_true] at hp
  cases h2 : c2 a with
  | none => right; simp [h2, hp.2]
  | some k => left; simp [hp.1, h2]

/-- A duplicate-free list contained in another list is no longer than it. -/
theorem nodup_subset_length (l m : List String) (hnd : l.Nodup) (hsub : l ⊆ m) :
    l.length ≤ m.length := by
  calc l.length = l.toFinset.card := (List.toFinset_card_of_nodup hnd).symm
    _ ≤ m.toFinset.card := Finset.card_le_card fun x hx =>
        List.mem_toFinset.mpr (hsub (List.mem_toFinset.mp hx))
    _ ≤ m.length := List.toFinset_card_le m

/-- One inner-loop iteration newly assigns at most as many addresses as the
member count it adds to the running total. -/
theorem newlyAssigned_processSeed (g : Graph) (c : Clustering) (cid : Nat)
    (s : String) (hnd : g.addrs.Nodup) :
    newlyAssigned g c (processSeed g c cid s).1 ≤ (seedMembers g s).length := by
  unfold newlyAssigned
  rw [List.countP_eq_length_filter]
  refine nodup_subset_length _ _ (List.Nodup.filter _ hnd) ?_
  intro a ha
  rcases List.mem_filter.mp ha with ⟨_, hp⟩
  simp only [Bool.and_eq_true] at hp
  obtain ⟨h1, h2⟩ := hp
  rcases assignClusterRun_cases g c (seedMembers g s) cid a with heq | ⟨_, hm, _, _⟩
  · exfalso
    have : (processSeed g c cid s).1 a = c a := heq
    rw [this] at h2
    cases hca : c a with
    | none => rw [hca] at h2; cases h2
    | some k => rw [hca] at h1; cases h1
  · exact hm

/-- One batch newly assigns at most what it adds to the running total. -/
theorem newlyAssigned_processPending (g : Graph) (pending : List String)
    (c : Clustering) (ctr : Nat) (hnd : g.addrs.Nodup) :
    newlyAssigned g c (processPending g c ctr pending).1 ≤
      (processPending g c ctr pending).2.2 := by
  induction pending generalizing c ctr with
  | nil => simp [processPending, newlyAssigned_self]
  | cons seed rest ih =>
    have h1 := newlyAssigned_processSeed g c ctr seed hnd
    have h2 := ih (processSeed g c ctr seed).1 (ctr + 1)
    have h3 := newlyAssigned_triangle g c (processSeed g c ctr seed).1
      (processPending g (processSeed g c ctr seed).1 (ctr + 1) rest).1
    show newlyAssigned g c (processPending g (processSeed g c ctr seed).1 (ctr + 1) rest).1 ≤
      (processSeed g c ctr seed).2 +
        (processPending g (processSeed g c ctr seed).1 (ctr + 1) rest).2.2
    have hps : (processSeed g c ctr seed).2 = (seedMembers g seed).length := rfl
    omega

/-- Across the whole while loop, the returned total dominates the newly
assigned count plus the total it started from. -/
theorem newlyAssigned_runLoop (g : Graph) (bs fuel : Nat) (c : Clustering)
    (ctr total : Nat) (p : Clustering × Nat) (hnd : g.addrs.Nodup)
    (h : runLoop g bs fuel c ctr total = some p) :
    newlyAssigned g c p.1 + total ≤ p.2 := by
  induction fuel generalizing c ctr total with
  | zero => cases h
  | succ fuel ih =>
    rw [runLoop_succ] at h
    by_cases hp : (fetchUnclustered g c bs).isEmpty
    · rw [if_pos hp] at h
      cases h
      simp [newlyAssigned_self]
    · rw [if_neg hp] at h
      have hih := ih _ _ _ h
      have hstep := newlyAssigned_processPending g (fetchUnclustered g c bs) c ctr hnd
      have htri := newlyAssigned_triangle g c
        (processPending g c ctr (fetchUnclustered g c bs)).1 p.1
      omega

/-- Counterexample to claim C3 as stated: on two adjacent addresses processed
in one batch, assign_clusters returns 4 although only 2 addresses received a
cluster_id (the second seed's whole, already clustered, component is counted
again). -/
theorem assign_clusters_return_cex :
    (assign_clusters gPair noClusters 50).map (fun p => p.2) = some 4 ∧
      (assign_clusters gPair noClusters 50).map
        (fun p => newlyAssigned gPair noClusters p.1) = some 2 ∧
      (4 : Nat) ≠ 2 :=
  ⟨by decide, by decide, by decide⟩

/-- Claim C3 amended: the value returned by a successful assign_clusters run
is an upper bound on the number of addresses the run newly assigned (it is
the sum of the component-member counts of every processed seed, and may count
an address several times, including addresses that already had a
cluster_id). -/
theorem assign_clusters_return_bound (g : Graph) (c : Clustering) (bs : Nat)
    (p : Clustering × Nat) (hnd : g.addrs.Nodup)
    (h : assign_clusters g c bs = some p) :
    newlyAssigned g c p.1 ≤ p.2 := by
  have := newlyAssigned_runLoop g bs (g.addrs.length + 1) c 0 0 p hnd h
  omega

/-- Witness for assign_clusters_return_bound on the concrete gPair store. -/
theorem assign_clusters_return_bound_witness :
    ∃ p, assign_clusters gPair noClusters 50 = some p ∧
      newlyAssigned gPair noClusters p.1 ≤ p.2 := by
  have hs : (assign_clusters gPair noClusters 50).isSome := by decide
  exact ⟨_, (Option.some_get hs).symm,
    assign_clusters_return_bound gPair noClusters 50 _ (by decide)
      (Option.some_get hs).symm⟩

/-! ## Reachability lemmas -/

/-- The seed is inside every one of its neighborhoods (the 0-length path of
the *0..d pattern). -/
theorem mem_ball_self (g : Graph) (a : String) (d : Nat) : a ∈ ball g a d := by
  induction d with
  | zero => exact List.mem_singleton.mpr rfl
  | succ d ih =>
    exact List.mem_union_iff.mpr (Or.inr ih)

/-- One more hop from a reachable node stays within the next neighborhood. -/
theorem mem_ball_step (g : Graph) (u v a : String) (d : Nat)
    (hu : u ∈ ball g a d) (hv : v ∈ neighborsOf g u) : v ∈ ball g a (d + 1) :=
  List.mem_union_iff.mpr (Or.inl (List.mem_flatMap.mpr ⟨u, hu, hv⟩))

/-- Both directions of Adj are symmetric. -/
theorem adj_symm (g : Graph) (u v : String) (h : Adj g u v) : Adj g v u :=
  h.elim Or.inr Or.inl

/-- An edge between u and v makes v an undirected neighbor of u. -/
theorem adj_mem_neighborsOf (g : Graph) (u v : String) (h : Adj g u v) :
    v ∈ neighborsOf g u := by
  rcases h with h | h
  · exact List.mem_filterMap.mpr ⟨(u, v), h, by simp⟩
  · refine List.mem_filterMap.mpr ⟨(v, u), h, ?_⟩
    by_cases hvu : v = u
    · subst hvu; simp
    · simp [hvu]

/-- A neighbor relation is always witnessed by an edge. -/
theorem mem_neighborsOf_endpoint (g : Graph) (u v : String)
    (h : v ∈ neighborsOf g u) :
    ∃ e ∈ g.edges, (e.1 = u ∧ e.2 = v) ∨ (e.2 = u ∧ e.1 = v) := by
  rcases List.mem_filterMap.mp h with ⟨e, he, hf⟩
  by_cases h1 : e.1 = u
  · simp [h1] at hf
    exact ⟨e, he, Or.inl ⟨h1, hf⟩⟩
  · by_cases h2 : e.2 = u
    · simp [h1, h2] at hf
      exact ⟨e, he, Or.inr ⟨h2, hf⟩⟩
    · simp [h1, h2] at hf

/-- An isolated address appears on no side of a neighbor relation. -/
theorem isolated_not_endpoint (g : Graph) (a u v : String)
    (hiso : Isolated g a = true) (h : v ∈ neighborsOf g u) : v ≠ a ∧ u ≠ a := by
  rcases mem_neighborsOf_endpoint g u v h with ⟨e, he, hcase⟩
  have hiso' := List.all_eq_true.mp hiso e he
  simp only [Bool.and_eq_true, Bool.not_eq_true', beq_eq_false_iff_ne] at hiso'
  rcases hcase with ⟨h1, h2⟩ | ⟨h1, h2⟩
  · exact ⟨h2 ▸ hiso'.2, h1 ▸ hiso'.1⟩
  · exact ⟨h2 ▸ hiso'.1, h1 ▸ hiso'.2⟩

/-- The neighborhood of an isolated address contains only itself. -/
theorem isolated_ball_around (g : Graph) (a : String) (hiso : Isolated g a = true) :
    ∀ d, ∀ x ∈ ball g a d, x = a := by
  intro d
  induction d with
  | zero => intro x hx; exact List.mem_singleton.mp hx
  | succ d ih =>
    intro x hx
    rcases List.mem_union_iff.mp hx with hb | hb
    · rcases List.mem_flatMap.mp hb with ⟨u, hu, hxu⟩
      have hua : u = a := ih u hu
      subst hua
      exact absurd rfl (isolated_not_endpoint g u u x hiso hxu).2
    · exact ih x hb

/-- An isolated address lies in no other seed's neighborhood. -/
theorem isolated_mem_ball (g : Graph) (a s : String) (hiso : Isolated g a = true) :
    ∀ d, a ∈ ball g s d → a = s := by
  intro d
  induction d with
  | zero => intro h; exact List.mem_singleton.mp h
  | succ d ih =>
    intro h
    rcases List.mem_union_iff.mp h with hb | hb
    · rcases List.mem_flatMap.mp hb with ⟨u, hu, hau⟩
      exact absurd rfl (isolated_not_endpoint g a u a hiso hau).1
    · exact ih hb

/-- Membership in the component query result. -/
theorem mem_componentMembers (g : Graph) (s x : String) :
    x ∈ componentMembers g s ↔
      s ∈ g.addrs ∧ x ∈ ball g s MAX_CLUSTER_DEPTH ∧ x ∈ g.addrs := by
  unfold componentMembers
  by_cases hs : s ∈ g.addrs
  · simp [hs, List.mem_filter]
  · simp [hs]

/-- For a seed that exists in the store the fallback branch is dead: the
member list is exactly the component query result. -/
theorem seedMembers_of_mem (g : Graph) (s : String) (hs : s ∈ g.addrs) :
    seedMembers g s = componentMembers g s := by
  have hmem : s ∈ componentMembers g s :=
    (mem_componentMembers g s s).mpr ⟨hs, mem_ball_self g s _, hs⟩
  have hne : (componentMembers g s).isEmpty = false := by
    cases h : componentMembers g s with
    | nil => rw [h] at hmem; cases hmem
    | cons y ys => rfl
  unfold seedMembers
  simp [hne]

/-- For a seed missing from the store the component query is empty and the
fallback produces the singleton member list. -/
theorem seedMembers_of_not_mem (g : Graph) (s : String) (hs : s ∉ g.addrs) :
    seedMembers g s = [s] := by
  unfold seedMembers componentMembers
  simp [hs]

/-! ## The adjacency invariant under assign_clusters -/

/-- Both endpoints of an edge exist in a well-formed store. -/
theorem adj_mem_addrs (g : Graph) (u v : String) (hec : EdgesClosed g = true)
    (h : Adj g u v) : u ∈ g.addrs ∧ v ∈ g.addrs := by
  rcases h with h | h
  · have he := List.all_eq_true.mp hec _ h
    simp only [Bool.and_eq_true, decide_eq_true_eq] at he
    exact he
  · have he := List.all_eq_true.mp hec _ h
    simp only [Bool.and_eq_true, decide_eq_true_eq] at he
    exact ⟨he.2, he.1⟩

/-- With an exact depth bound, one inner-loop iteration keeps adjacent
addresses in agreement: a member's neighbors are members too, so either both
endpoints get written with the same identifier or neither is touched. -/
theorem adjInv_processSeed (g : Graph) (c : Clustering) (cid : Nat) (s : String)
    (hec : EdgesClosed g = true) (hdc : DepthClosed g = true) (hI : AdjInv g c) :
    AdjInv g (processSeed g c cid s).1 := by
  intro u v hAdj
  obtain ⟨hu, hv⟩ := adj_mem_addrs g u v hec hAdj
  show assignClusterRun g c (seedMembers g s) cid u =
    assignClusterRun g c (seedMembers g s) cid v
  by_cases hs : s ∈ g.addrs
  · rw [seedMembers_of_mem g s hs]
    have hdc' := List.all_eq_true.mp hdc s hs
    by_cases hum : u ∈ componentMembers g s
    · have huball := ((mem_componentMembers g s u).mp hum).2.1
      have hvball7 := mem_ball_step g u v s _ huball (adj_mem_neighborsOf g u v hAdj)
      have hvball := List.all_eq_true.mp hdc' v hvball7
      simp only [decide_eq_true_eq] at hvball
      have hvm : v ∈ componentMembers g s :=
        (mem_componentMembers g s v).mpr ⟨hs, hvball, hv⟩
      rw [assignClusterRun_sets g c _ cid u hu hum,
        assignClusterRun_sets g c _ cid v hv hvm, hI u v hAdj]
    · have hvm : v ∉ componentMembers g s := by
        intro hvm
        apply hum
        have hvball := ((mem_componentMembers g s v).mp hvm).2.1
        have huball7 := mem_ball_step g v u s _ hvball
          (adj_mem_neighborsOf g v u (adj_symm g u v hAdj))
        have huball := List.all_eq_true.mp hdc' u huball7
        simp only [decide_eq_true_eq] at huball
        exact (mem_componentMembers g s u).mpr ⟨hs, huball, hu⟩
      rw [assignClusterRun_skip g c _ cid u fun hc => hum hc.2,
        assignClusterRun_skip g c _ cid v fun hc => hvm hc.2]
      exact hI u v hAdj
  · rw [seedMembers_of_not_mem g s hs]
    have hskip : ∀ w, w ∈ g.addrs → ¬(w ∈ g.addrs ∧ w ∈ [s]) := by
      rintro w hw ⟨_, hws⟩
      rcases List.mem_singleton.mp hws with rfl
      exact hs hw
    rw [assignClusterRun_skip g c _ cid u (hskip u hu),
      assignClusterRun_skip g c _ cid v (hskip v hv)]
    exact hI u v hAdj

/-- One batch keeps adjacent addresses in agreement. -/
theorem adjInv_processPending (g : Graph) (pending : List String) (c : Clustering)
    (ctr : Nat) (hec : EdgesClosed g = true) (hdc : DepthClosed g = true)
    (hI : AdjInv g c) : AdjInv g (processPending g c ctr pending).1 := by
  induction pending generalizing c ctr with
  | nil => exact hI
  | cons seed rest ih =>
    exact ih (processSeed g c ctr seed).1 (ctr + 1)
      (adjInv_processSeed g c ctr seed hec hdc hI)

/-- The whole while loop keeps adjacent addresses in agreement. -/
theorem adjInv_runLoop (g : Graph) (bs fuel : Nat) (c : Clustering)
    (ctr total : Nat) (p : Clustering × Nat) (hec : EdgesClosed g = true)
    (hdc : DepthClosed g = true) (hI : AdjInv g c)
    (h : runLoop g bs fuel c ctr total = some p) : AdjInv g p.1 := by
  induction fuel generalizing c ctr total with
  | zero => cases h
  | succ fuel ih =>
    rw [runLoop_succ] at h
    by_cases hp : (fetchUnclustered g c bs).isEmpty
    · rw [if_pos hp] at h
      cases h
      exact hI
    · rw [if_neg hp] at h
      exact ih _ _ _ (adjInv_processPending g _ c ctr hec hdc hI) h

/-! ## The singleton-cluster invariant under assign_clusters -/

/-- Each inner-loop iteration consumes one counter value and only ever
assigns that value. -/
theorem idsBelow_processSeed (g : Graph) (c : Clustering) (ctr : Nat) (s : String)
    (hU : IdsBelow c ctr) : IdsBelow (processSeed g c ctr s).1 (ctr + 1) := by
  intro a k hk
  rcases assignClusterRun_cases g c (seedMembers g s) ctr a with he | ⟨_, _, _, he⟩
  · have : c a = some k := by
      have hk' : assignClusterRun g c (seedMembers g s) ctr a = some k := hk
      rw [he] at hk'
      exact hk'
    have := hU a k this
    omega
  · have hk' : assignClusterRun g c (seedMembers g s) ctr a = some k := hk
    rw [he] at hk'
    have : ctr = k := by injection hk'
    omega

/-- One inner-loop iteration preserves the singleton invariant of an
isolated address: only the iteration seeded at the isolated address itself
can write it, and that iteration writes nothing else. -/
theorem singletonInv_processSeed (g : Graph) (c : Clustering) (ctr : Nat)
    (s a : String) (hiso : Isolated g a = true) (ha : a ∈ g.addrs)
    (hU : IdsBelow c ctr) (hW : SingletonInv a c) :
    SingletonInv a (processSeed g c ctr s).1 := by
  rcases hW with hnone | ⟨k, hk, huniq⟩
  · rcases assignClusterRun_cases g c (seedMembers g s) ctr a with he | ⟨_, ham, _, he⟩
    · exact Or.inl (he.trans hnone)
    · have hsa : s = a := by
        by_cases hs : s ∈ g.addrs
        · rw [seedMembers_of_mem g s hs] at ham
          exact (isolated_mem_ball g a s hiso _
            ((mem_componentMembers g s a).mp ham).2.1).symm
        · rw [seedMembers_of_not_mem g s hs] at ham
          exact (List.mem_singleton.mp ham).symm
      subst hsa
      right
      refine ⟨ctr, he, ?_⟩
      intro b hb
      have hb' : assignClusterRun g c (seedMembers g s) ctr b = some ctr := hb
      rcases assignClusterRun_cases g c (seedMembers g s) ctr b with hbe | ⟨_, hbm, _, hbe⟩
      · rw [hbe] at hb'
        exact absurd (hU b ctr hb') (lt_irrefl ctr)
      · rw [seedMembers_of_mem g s ha] at hbm
        exact isolated_ball_around g s hiso _ b
          ((mem_componentMembers g s b).mp hbm).2.1
  · right
    refine ⟨k, processSeed_keep g c ctr s a k hk, ?_⟩
    intro b hb
    have hb' : assignClusterRun g c (seedMembers g s) ctr b = some k := hb
    rcases assignClusterRun_cases g c (seedMembers g s) ctr b with hbe | ⟨_, _, _, hbe⟩
    · rw [hbe] at hb'
      exact huniq b hb'
    · rw [hbe] at hb'
      have : ctr = k := by injection hb'
      have := hU a k hk
      omega

/-- One batch preserves the counter bound and the singleton invariant. -/
theorem singletonInv_processPending (g : Graph) (pending : List String)
    (c : Clustering) (ctr : Nat) (a : String) (hiso : Isolated g a = true)
    (ha : a ∈ g.addrs) (hU : IdsBelow c ctr) (hW : SingletonInv a c) :
    IdsBelow (processPending g c ctr pending).1 (processPending g c ctr pending).2.1 ∧
      SingletonInv a (processPending g c ctr pending).1 := by
  induction pending generalizing c ctr with
  | nil => exact ⟨hU, hW⟩
  | cons seed rest ih =>
    exact ih (processSeed g c ctr seed).1 (ctr + 1)
      (idsBelow_processSeed g c ctr seed hU)
      (singletonInv_processSeed g c ctr seed a hiso ha hU hW)

/-- The whole while loop preserves the singleton invariant. -/
theorem singletonInv_runLoop (g : Graph) (bs fuel : Nat) (c : Clustering)
    (ctr total : Nat) (p : Clustering × Nat) (a : String)
    (hiso : Isolated g a = true) (ha : a ∈ g.addrs) (hU : IdsBelow c ctr)
    (hW : SingletonInv a c) (h : runLoop g bs fuel c ctr total = some p) :
    SingletonInv a p.1 := by
  induction fuel generalizing c ctr total with
  | zero => cases h
  | succ fuel ih =>
    rw [runLoop_succ] at h
    by_cases hp : (fetchUnclustered g c bs).isEmpty
    · rw [if_pos hp] at h
      cases h
      exact hW
    · rw [if_neg hp] at h
      obtain ⟨hU', hW'⟩ := singletonInv_processPending g _ c ctr a hiso ha hU hW
      exact ih _ _ _ hU' hW' h

/-- Counterexample to claim C1 as stated: on an 8-address SENT path (one true
component of diameter 7, one hop beyond the depth-6 component query), a full
assign_clusters run leaves the adjacent addresses a6 and a7 with different
cluster_id values. -/
theorem assign_clusters_adjacent_cex :
    ("a6", "a7") ∈ gPath8.edges ∧
      (assign_clusters gPath8 noClusters 50).map
        (fun p => decide (p.1 "a6" = p.1 "a7")) = some false :=
  ⟨by decide, by decide⟩

/-- Claim C1 amended: over a well-formed stable graph whose true connected
components all fit inside the depth-6 component query (DepthClosed), a
successful assign_clusters run from the fully unclustered state gives any two
addresses connected by a SENT edge equal cluster_id, and gives an isolated
address a cluster_id shared by no other address; without the diameter bound
the adjacent-equality part fails (see the counterexample). -/
theorem assign_clusters_components (g : Graph) (bs : Nat) (p : Clustering × Nat)
    (hec : EdgesClosed g = true) (hdc : DepthClosed g = true) (hbs : 1 ≤ bs)
    (h : assign_clusters g noClusters bs = some p) :
    (∀ u v, Adj g u v → ∃ k, p.1 u = some k ∧ p.1 v = some k) ∧
      (∀ a, a ∈ g.addrs → Isolated g a = true →
        ∃ k, p.1 a = some k ∧ ∀ b, b ∈ g.addrs → b ≠ a → p.1 b ≠ some k) := by
  have hall : ∀ a ∈ g.addrs, (p.1 a).isSome :=
    fetch_empty_all_clustered g p.1 bs hbs
      (runLoop_final_fetch g bs (g.addrs.length + 1) noClusters 0 0 p h)
  constructor
  · intro u v hAdj
    have hInv : AdjInv g p.1 :=
      adjInv_runLoop g bs (g.addrs.length + 1) noClusters 0 0 p hec hdc
        (fun _ _ _ => rfl) h
    obtain ⟨hu, hv⟩ := adj_mem_addrs g u v hec hAdj
    have heq := hInv u v hAdj
    cases hk : p.1 u with
    | none =>
      have := hall u hu
      rw [hk] at this
      cases this
    | some k => exact ⟨k, rfl, heq ▸ hk⟩
  · intro a ha hiso
    have hS : SingletonInv a p.1 :=
      singletonInv_runLoop g bs (g.addrs.length + 1) noClusters 0 0 p a hiso ha
        (fun _ k hk => Option.noConfusion hk) (Or.inl rfl) h
    rcases hS with hnone | ⟨k, hk, huniq⟩
    · have := hall a ha
      rw [hnone] at this
      cases this
    · exact ⟨k, hk, fun b _ hba hbk => hba (huniq b hbk)⟩

/-- Witness for assign_clusters_components on the concrete gTri store: the
connected pair agrees on its cluster_id and the isolated address gets an id
of its own. -/
theorem assign_clusters_components_witness :
    ∃ p, assign_clusters gTri noClusters 50 = some p ∧
      (∃ k, p.1 "c0" = some k ∧ p.1 "c1" = some k) ∧
      (∃ k, p.1 "c2" = some k ∧ ∀ b, b ∈ gTri.addrs → b ≠ "c2" → p.1 b ≠ some k) := by
  have hs : (assign_clusters gTri noClusters 50).isSome := by decide
  have h := (Option.some_get hs).symm
  have hc := assign_clusters_components gTri 50 _ (by decide) (by decide)
    (by decide) h
  exact ⟨_, h, hc.1 "c0" "c1" (Or.inl (by decide)), hc.2 "c2" (by decide) (by decide)⟩

/-! ## Claim C2: the maxHops bound -/

/-- Counterexample to claim C2 as stated: a request with maxHops = 9 does not
behave as if maxHops = 8: pydantic validation (le=8 on the max_hops field)
rejects it with an error before the clamp in _normalize_request can run,
while maxHops = 8 succeeds. -/
theorem effectiveMaxHops_cex :
    effectiveMaxHops 9 = Except.error .validationError ∧
      effectiveMaxHops 8 = Except.ok 8 ∧
      effectiveMaxHops 9 ≠ effectiveMaxHops 8 := by
  refine ⟨rfl, rfl, ?_⟩
  intro h
  rw [show effectiveMaxHops 9 = Except.error .validationError from rfl,
    show effectiveMaxHops 8 = Except.ok 8 from rfl] at h
  cases h

/-- Claim C2 amended: a Trace request is accepted exactly when the requested
maxHops already lies in [1, 8] (the pydantic field bounds); out-of-range
values are rejected with a validation error, not silently clamped, and on
every accepted request the _normalize_request clamp max(1, min(8, h)) is the
identity, so the effective hop bound equals the requested value. -/
theorem effectiveMaxHops_spec (h : Int) :
    (traceRequestValidHops h = true →
      effectiveMaxHops h = Except.ok (clampMaxHops h) ∧ clampMaxHops h = h) ∧
      (traceRequestValidHops h = false →
        effectiveMaxHops h = Except.error .validationError) := by
  constructor
  · intro hv
    have hb : (1 : Int) ≤ h ∧ h ≤ 8 := by
      have := hv
      unfold traceRequestValidHops at this
      simp only [Bool.and_eq_true, decide_eq_true_eq] at this
      exact this
    refine ⟨?_, ?_⟩
    · unfold effectiveMaxHops
      rw [hv]
      simp
    · unfold clampMaxHops
      omega
  · intro hv
    unfold effectiveMaxHops
    rw [hv]
    simp

/-- Witness for effectiveMaxHops_spec at the in-range request 5 and the
out-of-range request 0. -/
theorem effectiveMaxHops_spec_witness :
    (traceRequestValidHops 5 = true ∧ effectiveMaxHops 5 = Except.ok 5) ∧
      (traceRequestValidHops 0 = false ∧
        effectiveMaxHops 0 = Except.error .validationError) := by
  refine ⟨⟨by decide, ?_⟩, ⟨by decide, ?_⟩⟩
  · have h := (effectiveMaxHops_spec 5).1 (by decide)
    rw [h.1, h.2]
  · exact (effectiveMaxHops_spec 0).2 (by decide)

/-! ## Claim C6: severity evaluation -/

/-- Claim C6: evaluate_alert_severity computes each address's alert_severity
as a pure function of (is_sanctioned, risk_score) with the fixed decision
order sanctioned to HIGH, then 0.95 / 0.75 / 0.5 thresholds to
HIGH / MEDIUM / ELEVATED, else (including a null score) LOW; the per-address
update is idempotent and the operation is total, updating and counting every
address. -/
theorem evaluate_severity_spec (sanc : Option Bool) (risk : Option ℚ) :
    (sanc.getD false = true → evaluate_severity sanc risk = .HIGH) ∧
      (sanc.getD false = false →
        ((0.95 : ℚ) ≤ risk.getD 0 → evaluate_severity sanc risk = .HIGH) ∧
          (risk.getD 0 < (0.95 : ℚ) → (0.75 : ℚ) ≤ risk.getD 0 →
            evaluate_severity sanc risk = .MEDIUM) ∧
          (risk.getD 0 < (0.75 : ℚ) → (0.5 : ℚ) ≤ risk.getD 0 →
            evaluate_severity sanc risk = .ELEVATED) ∧
          (risk.getD 0 < (0.5 : ℚ) → evaluate_severity sanc risk = .LOW)) ∧
      (risk = none → sanc.getD false = false → evaluate_severity sanc risk = .LOW) ∧
      (∀ sev0, evaluateSeverityStep (evaluateSeverityStep ⟨sanc, risk, sev0⟩) =
        evaluateSeverityStep ⟨sanc, risk, sev0⟩) ∧
      (∀ l : List AddrRec, (evaluateSeverityAll l).2 = l.length ∧
        (evaluateSeverityAll (evaluateSeverityAll l).1).1 = (evaluateSeverityAll l).1) := by
  refine ⟨?_, ?_, ?_, ?_, ?_⟩
  · intro hs
    unfold evaluate_severity
    rw [hs]
    simp
  · intro hs
    refine ⟨?_, ?_, ?_, ?_⟩
    · intro h95
      unfold evaluate_severity
      rw [hs]
      simp [h95]
    · intro hlt hge
      unfold evaluate_severity
      rw [hs]
      simp only [Bool.false_eq_true, if_false]
      rw [if_neg (not_le.mpr hlt), if_pos hge]
    · intro hlt hge
      unfold evaluate_severity
      rw [hs]
      simp only [Bool.false_eq_true, if_false]
      rw [if_neg (not_le.mpr (lt_of_lt_of_le hlt (by norm_num))),
        if_neg (not_le.mpr hlt), if_pos hge]
    · intro hlt
      unfold evaluate_severity
      rw [hs]
      simp only [Bool.false_eq_true, if_false]
      rw [if_neg (not_le.mpr (lt_of_lt_of_le hlt (by norm_num))),
        if_neg (not_le.mpr (lt_of_lt_of_le hlt (by norm_num))),
        if_neg (not_le.mpr hlt)]
  · intro hr hs
    subst hr
    unfold evaluate_severity
    rw [hs]
    norm_num
  · intro sev0
    rfl
  · intro l
    refine ⟨rfl, ?_⟩
    show (l.map evaluateSeverityStep).map evaluateSeverityStep = l.map evaluateSeverityStep
    rw [List.map_map]
    refine List.map_congr_left ?_
    intro a _
    show evaluateSeverityStep (evaluateSeverityStep a) = evaluateSeverityStep a
    cases a
    rfl

/-- Witness for evaluate_severity_spec at the five example points of the
specification: 0.96 unsanctioned is HIGH, 0.8 MEDIUM, 0.6 ELEVATED, 0.1 LOW,
and sanctioned is HIGH regardless of score. -/
theorem evaluate_severity_spec_witness :
    evaluate_severity (some false) (some 0.96) = .HIGH ∧
      evaluate_severity (some false) (some 0.8) = .MEDIUM ∧
      evaluate_severity (some false) (some 0.6) = .ELEVATED ∧
      evaluate_severity (some false) (some 0.1) = .LOW ∧
      evaluate_severity (some true) (some 0.1) = .HIGH := by
  refine ⟨((evaluate_severity_spec (some false) (some 0.96)).2.1 rfl).1 (by norm_num),
    ((evaluate_severity_spec (some false) (some 0.8)).2.1 rfl).2.1 (by norm_num) (by norm_num),
    ((evaluate_severity_spec (some false) (some 0.6)).2.1 rfl).2.2.1 (by norm_num) (by norm_num),
    ((evaluate_severity_spec (some false) (some 0.1)).2.1 rfl).2.2.2 (by norm_num),
    (evaluate_severity_spec (some true) (some 0.1)).1 rfl⟩

/-! ## Claim C9: risk-score normalization -/

/-- Folding max over a constant list is the identity on the seed. -/
theorem foldl_max_const (v : ℚ) : ∀ rs : List ℚ, (∀ x ∈ rs, x = v) →
    rs.foldl max v = v := by
  intro rs
  induction rs with
  | nil => intro _; rfl
  | cons x xs ih =>
    intro h
    have hx : x = v := h x (List.mem_cons_self x xs)
    show List.foldl max (max v x) xs = v
    rw [hx, max_self]
    exact ih fun y hy => h y (List.mem_cons_of_mem x hy)

/-- Folding min over a constant list is the identity on the seed. -/
theorem foldl_min_const (v : ℚ) : ∀ rs : List ℚ, (∀ x ∈ rs, x = v) →
    rs.foldl min v = v := by
  intro rs
  induction rs with
  | nil => intro _; rfl
  | cons x xs ih =>
    intro h
    have hx : x = v := h x (List.mem_cons_self x xs)
    show List.foldl min (min v x) xs = v
    rw [hx, min_self]
    exact ih fun y hy => h y (List.mem_cons_of_mem x hy)

/-- Claim C9: risk-score normalization is division-safe and range-bounded:
the denominator is floored at the positive epsilon 1e-9 (so it is never
zero, in particular when max == min), every produced risk_score lies in
[0, 1], and a raw-score list whose entries are all identical (as produced by
a feature matrix of identical rows) hits exactly the epsilon floor and
yields all-zero risk scores. -/
theorem risk_normalization_safe (raw : List ℚ) :
    0 < scoreRange raw ∧
      (1 : ℚ) / 1000000000 ≤ scoreRange raw ∧
      (∀ r ∈ riskScores raw, 0 ≤ r ∧ r ≤ 1) ∧
      (∀ v, (∀ x ∈ raw, x = v) →
        scoreRange raw = 1 / 1000000000 ∧ ∀ r ∈ riskScores raw, r = 0) := by
  have heps : (1 : ℚ) / 1000000000 ≤ scoreRange raw := le_max_right _ _
  refine ⟨lt_of_lt_of_le (by norm_num) heps, heps, ?_, ?_⟩
  · intro r hr
    rcases List.mem_map.mp hr with ⟨x, _, hx⟩
    subst hx
    unfold clip01
    constructor
    · exact le_min (le_max_right _ _) (by norm_num)
    · exact min_le_right _ _
  · intro v hv
    have hmx : scoreMax raw = v ∨ raw = [] := by
      cases raw with
      | nil => exact Or.inr rfl
      | cons x xs =>
        left
        show xs.foldl max x = v
        rw [hv x (List.mem_cons_self x xs)]
        exact foldl_max_const v xs fun y hy => hv y (List.mem_cons_of_mem x hy)
    have hmn : scoreMin raw = v ∨ raw = [] := by
      cases raw with
      | nil => exact Or.inr rfl
      | cons x xs =>
        left
        show xs.foldl min x = v
        rw [hv x (List.mem_cons_self x xs)]
        exact foldl_min_const v xs fun y hy => hv y (List.mem_cons_of_mem x hy)
    rcases hmx with hmx | hnil
    · rcases hmn with hmn | hnil
      · constructor
        · unfold scoreRange
          rw [hmx, hmn, sub_self]
          exact max_eq_right (by norm_num)
        · intro r hr
          rcases List.mem_map.mp hr with ⟨x, hxm, hx⟩
          rw [hv x hxm, hmx, sub_self, zero_div] at hx
          rw [← hx]
          unfold clip01
          norm_num
      · subst hnil
        exact ⟨by unfold scoreRange scoreMax scoreMin; norm_num, by intro r hr; cases hr⟩
    · subst hnil
      exact ⟨by unfold scoreRange scoreMax scoreMin; norm_num, by intro r hr; cases hr⟩

/-- Witness for risk_normalization_safe on the constant raw-score list
[3, 3]: the range floors at 1e-9 and both risk scores are 0. -/
theorem risk_normalization_safe_witness :
    scoreRange [(3 : ℚ), 3] = 1 / 1000000000 ∧
      ∀ r ∈ riskScores [(3 : ℚ), 3], r = 0 :=
  (risk_normalization_safe [3, 3]).2.2.2 3 (by
    intro x hx
    rcases List.mem_cons.mp hx with h | h
    · exact h
    · exact List.mem_singleton.mp h)

/-! ## Claims C7 and C8: trace post-processing -/

/-- Claim C7: trace_route reports NotFound exactly when the merged node
dictionary is empty; in particular a trace with no returned paths, and any
zero-node merge (even one with a nonempty record list), is reported as
NotFound rather than as an empty success. -/
theorem trace_notfound_iff (records : List (Option PathRec)) :
    traceRouteResult records = Except.error .notFound ↔
      (pathsToGraph records).1 = [] := by
  constructor
  · intro he
    by_cases h : (pathsToGraph records).1.isEmpty
    · exact List.isEmpty_iff.mp h
    · unfold traceRouteResult at he
      rw [if_neg h] at he
      cases he
  · intro hnil
    unfold traceRouteResult
    rw [if_pos (List.isEmpty_iff.mpr hnil)]

/-- Witness for trace_notfound_iff: the empty record list, and a nonempty
record list whose only node is not an Address (a zero-node, one-edge merge),
are both answered with NotFound. -/
theorem trace_notfound_iff_witness :
    traceRouteResult [] = Except.error .notFound ∧
      traceRouteResult [some pathNoAddress] = Except.error .notFound :=
  ⟨(trace_notfound_iff []).mpr rfl, (trace_notfound_iff [some pathNoAddress]).mpr rfl⟩

/-- lookupNode finds a key exactly when it occurs among the stored keys. -/
theorem lookupNode_isSome_iff (ns : List (String × TraceNode)) (a : String) :
    (lookupNode ns a).isSome ↔ a ∈ ns.map Prod.fst := by
  unfold lookupNode
  cases hf : ns.find? (fun p => p.1 == a) with
  | none =>
    constructor
    · intro h
      simp at h
    · intro hmem
      exfalso
      rcases List.mem_map.mp hmem with ⟨x, hx, hfst⟩
      exact absurd (beq_iff_eq.mpr hfst) (by simpa using List.find?_eq_none.mp hf x hx)
  | some x =>
    constructor
    · intro _
      have hpx := List.find?_some hf
      exact List.mem_map.mpr ⟨x, List.mem_of_find?_eq_some hf, beq_iff_eq.mp hpx⟩
    · intro _
      rfl

/-- Inserting a node keeps the key list duplicate-free. -/
theorem insertNode_keys_nodup (ns : List (String × TraceNode)) (n : NodeRec)
    (h : (ns.map Prod.fst).Nodup) : ((insertNode ns n).map Prod.fst).Nodup := by
  unfold insertNode
  by_cases hl : "Address" ∈ n.labels
  · rw [if_pos hl]
    cases ha : n.address with
    | none => exact h
    | some a =>
      by_cases he : a.isEmpty
      · simp [he, h]
      · simp only [he, Bool.false_eq_true, if_false]
        by_cases hs : (lookupNode ns a).isSome
        · simp [hs, h]
        · simp only [hs, Bool.false_eq_true, if_false]
          rw [List.map_append]
          rw [List.nodup_append]
          refine ⟨h, List.nodup_singleton a, ?_⟩
          intro x hx hxa
          rcases List.mem_singleton.mp hxa with rfl
          exact hs ((lookupNode_isSome_iff ns x).mpr hx)
  · rw [if_neg hl]
    exact h

/-- Folding the nodes of a path keeps the key list duplicate-free. -/
theorem foldNodes_keys_nodup (nodes : List NodeRec) :
    ∀ ns, (ns.map Prod.fst).Nodup →
      ((nodes.foldl insertNode ns).map Prod.fst).Nodup := by
  induction nodes with
  | nil => exact fun ns h => h
  | cons n rest ih => exact fun ns h => ih (insertNode ns n) (insertNode_keys_nodup ns n h)

/-- Folding records keeps the key list duplicate-free. -/
theorem foldRecords_keys_nodup (records : List (Option PathRec)) :
    ∀ acc : List (String × TraceNode) × List TraceEdge, (acc.1.map Prod.fst).Nodup →
      ((records.foldl processPathRec acc).1.map Prod.fst).Nodup := by
  induction records with
  | nil => exact fun acc h => h
  | cons rec rest ih =>
    intro acc h
    refine ih (processPathRec acc rec) ?_
    cases rec with
    | none => exact h
    | some p => exact foldNodes_keys_nodup p.nodes acc.1 h

/-- A key already present keeps its value when the dictionary grows. -/
theorem lookupNode_append (ns ms : List (String × TraceNode)) (a : String)
    (h : (lookupNode ns a).isSome) : lookupNode (ns ++ ms) a = lookupNode ns a := by
  unfold lookupNode at h ⊢
  rw [List.find?_append]
  cases hf : ns.find? (fun p => p.1 == a) with
  | none => rw [hf] at h; cases h
  | some x => rfl

/-- Inserting one node never changes the value of a key already present. -/
theorem lookupNode_insertNode (ns : List (String × TraceNode)) (n : NodeRec)
    (a : String) (h : (lookupNode ns a).isSome) :
    lookupNode (insertNode ns n) a = lookupNode ns a := by
  unfold insertNode
  by_cases hl : "Address" ∈ n.labels
  · rw [if_pos hl]
    cases hna : n.address with
    | none => rfl
    | some b =>
      by_cases he : b.isEmpty
      · simp [he]
      · simp only [he, Bool.false_eq_true, if_false]
        by_cases hs : (lookupNode ns b).isSome
        · simp [hs]
        · simp only [hs, Bool.false_eq_true, if_false]
          exact lookupNode_append ns _ a h
  · rw [if_neg hl]

/-- Folding more nodes never changes the value of a key already present. -/
theorem lookupNode_foldNodes (nodes : List NodeRec) :
    ∀ ns a, (lookupNode ns a).isSome →
      lookupNode (nodes.foldl insertNode ns) a = lookupNode ns a := by
  induction nodes with
  | nil => exact fun ns a _ => rfl
  | cons n rest ih =>
    intro ns a h
    have h1 := lookupNode_insertNode ns n a h
    have h2 : (lookupNode (insertNode ns n) a).isSome := by rw [h1]; exact h
    rw [List.foldl_cons, ih (insertNode ns n) a h2, h1]

/-- Folding more records never changes the value of a key already present. -/
theorem lookupNode_foldRecords (records : List (Option PathRec)) :
    ∀ acc : List (String × TraceNode) × List TraceEdge, ∀ a,
      (lookupNode acc.1 a).isSome →
      lookupNode (records.foldl processPathRec acc).1 a = lookupNode acc.1 a := by
  induction records with
  | nil => exact fun acc a _ => rfl
  | cons rec rest ih =>
    intro acc a h
    have hstep : lookupNode (processPathRec acc rec).1 a = lookupNode acc.1 a := by
      cases rec with
      | none => rfl
      | some p => exact lookupNode_foldNodes p.nodes acc.1 a h
    have h2 : (lookupNode (processPathRec acc rec).1 a).isSome := by rw [hstep]; exact h
    rw [List.foldl_cons, ih (processPathRec acc rec) a h2, hstep]

/-- insertEdge only ever appends at the end. -/
theorem insertEdge_eq_append (es : List TraceEdge) (r : RelRec) :
    insertEdge es r = es ++ insertEdge [] r := by
  unfold insertEdge
  by_cases ht : r.rtype = "SENT"
  · rw [if_pos ht, if_pos ht]
    cases hs : r.startAddress with
    | none => simp
    | some s =>
      cases he : r.endAddress with
      | none => simp
      | some t =>
        by_cases hf : (s.isEmpty || t.isEmpty) = true
        · simp [hf]
        · simp [hf]
  · rw [if_neg ht, if_neg ht]
    simp

/-- Folding relationships factors through the edge list accumulated so far:
edges are only appended, never merged or deduplicated. -/
theorem foldl_insertEdge_append (rels : List RelRec) :
    ∀ es, rels.foldl insertEdge es = es ++ rels.foldl insertEdge [] := by
  induction rels with
  | nil => intro es; simp
  | cons r rest ih =>
    intro es
    rw [List.foldl_cons, List.foldl_cons, ih (insertEdge es r),
      ih (insertEdge [] r), insertEdge_eq_append es r, List.append_assoc]

/-- The edge component of the record fold factors through the accumulator. -/
theorem foldRecords_edges (records : List (Option PathRec)) :
    ∀ acc : List (String × TraceNode) × List TraceEdge,
      (records.foldl processPathRec acc).2 =
        acc.2 ++ (records.foldl processPathRec ([], [])).2 := by
  induction records with
  | nil => intro acc; simp
  | cons rec rest ih =>
    intro acc
    rw [List.foldl_cons, List.foldl_cons, ih (processPathRec acc rec),
      ih (processPathRec ([], []) rec)]
    have hstep : (processPathRec acc rec).2 = acc.2 ++ (processPathRec ([], []) rec).2 := by
      cases rec with
      | none => simp [processPathRec]
      | some p =>
        show p.rels.foldl insertEdge acc.2 = acc.2 ++ p.rels.foldl insertEdge []
        exact foldl_insertEdge_append p.rels acc.2
    rw [hstep, List.append_assoc]

/-- A node not labeled Address is silently skipped. -/
theorem insertNode_skip (ns : List (String × TraceNode)) (n : NodeRec)
    (h : "Address" ∉ n.labels) : insertNode ns n = ns := by
  unfold insertNode
  rw [if_neg h]

/-- A relationship whose type is not SENT is silently skipped. -/
theorem insertEdge_skip (es : List TraceEdge) (r : RelRec)
    (h : r.rtype ≠ "SENT") : insertEdge es r = es := by
  unfold insertEdge
  rw [if_neg h]

/-- Folding nodes sees only the Address-labeled ones. -/
theorem foldNodes_filter (nodes : List NodeRec) :
    ∀ ns, nodes.foldl insertNode ns =
      (nodes.filter fun n => decide ("Address" ∈ n.labels)).foldl insertNode ns := by
  induction nodes with
  | nil => intro ns; rfl
  | cons n rest ih =>
    intro ns
    by_cases hl : "Address" ∈ n.labels
    · rw [List.foldl_cons, List.filter_cons_of_pos (by simpa using hl), List.foldl_cons,
        ih (insertNode ns n)]
    · rw [List.foldl_cons, List.filter_cons_of_neg (by simpa using hl),
        insertNode_skip ns n hl, ih ns]

/-- Folding relationships sees only the SENT-typed ones. -/
theorem foldEdges_filter (rels : List RelRec) :
    ∀ es, rels.foldl insertEdge es =
      (rels.filter fun r => r.rtype == "SENT").foldl insertEdge es := by
  induction rels with
  | nil => intro es; rfl
  | cons r rest ih =>
    intro es
    by_cases ht : r.rtype = "SENT"
    · rw [List.foldl_cons, List.filter_cons_of_pos (by simp [ht]), List.foldl_cons,
        ih (insertEdge es r)]
    · rw [List.foldl_cons, List.filter_cons_of_neg (by simpa using ht),
        insertEdge_skip es r ht, ih es]

/-- Processing a record is unchanged when its skipped parts are removed. -/
theorem processPathRec_restrict (acc : List (String × TraceNode) × List TraceEdge)
    (rec : Option PathRec) :
    processPathRec acc (restrictPathRec rec) = processPathRec acc rec := by
  cases rec with
  | none => rfl
  | some p =>
    show ((p.nodes.filter fun n => decide ("Address" ∈ n.labels)).foldl insertNode acc.1,
        (p.rels.filter fun r => r.rtype == "SENT").foldl insertEdge acc.2) =
      (p.nodes.foldl insertNode acc.1, p.rels.foldl insertEdge acc.2)
    rw [← foldNodes_filter, ← foldEdges_filter]

/-- Folding records is unchanged when their skipped parts are removed. -/
theorem foldRecords_restrict (records : List (Option PathRec)) :
    ∀ acc : List (String × TraceNode) × List TraceEdge,
      (records.map restrictPathRec).foldl processPathRec acc =
        records.foldl processPathRec acc := by
  induction records with
  | nil => intro acc; rfl
  | cons rec rest ih =>
    intro acc
    rw [List.map_cons, List.foldl_cons, List.foldl_cons, processPathRec_restrict]
    exact ih (processPathRec acc rec)

/-- Claim C8: in _paths_to_graph, nodes are deduplicated by address with the
first occurrence's attributes winning (the node dictionary has
duplicate-free keys, and a key once present keeps its value however many
records follow), edges are not deduplicated at all (merging a longer record
list concatenates edge lists, so a relationship record appearing in two
paths is emitted twice), and non-Address nodes and non-SENT relationships
are silently skipped (removing them from the records changes nothing). -/
theorem paths_to_graph_merge :
    (∀ records : List (Option PathRec), ((pathsToGraph records).1.map Prod.fst).Nodup) ∧
      (∀ rs rs' : List (Option PathRec), ∀ a,
        (lookupNode (pathsToGraph rs).1 a).isSome →
          lookupNode (pathsToGraph (rs ++ rs')).1 a = lookupNode (pathsToGraph rs).1 a) ∧
      (∀ rs rs' : List (Option PathRec),
        (pathsToGraph (rs ++ rs')).2 = (pathsToGraph rs).2 ++ (pathsToGraph rs').2) ∧
      (∀ records : List (Option PathRec),
        pathsToGraph (records.map restrictPathRec) = pathsToGraph records) := by
  refine ⟨?_, ?_, ?_, ?_⟩
  · intro records
    exact foldRecords_keys_nodup records ([], []) List.nodup_nil
  · intro rs rs' a h
    unfold pathsToGraph
    rw [List.foldl_append]
    exact lookupNode_foldRecords rs' (rs.foldl processPathRec ([], [])) a h
  · intro rs rs'
    unfold pathsToGraph
    rw [List.foldl_append]
    exact foldRecords_edges rs' (rs.foldl processPathRec ([], []))
  · intro records
    exact foldRecords_restrict records ([], [])

/-- Witness for paths_to_graph_merge: with the same address appearing (with
different attributes) in a second path, the merged dictionary keeps the first
occurrence; merging the same path twice emits its edge twice. -/
theorem paths_to_graph_merge_witness :
    lookupNode (pathsToGraph [some pathAB, some pathAB2]).1 "0xaa" =
      lookupNode (pathsToGraph [some pathAB]).1 "0xaa" ∧
      (pathsToGraph [some pathAB, some pathAB]).2 =
        (pathsToGraph [some pathAB]).2 ++ (pathsToGraph [some pathAB]).2 :=
  ⟨paths_to_graph_merge.2.1 [some pathAB] [some pathAB2] "0xaa" (by decide),
    paths_to_graph_merge.2.2.1 [some pathAB] [some pathAB]⟩

/-! ## Claim C10: address normalization -/

/-- Character-level facts about the hex character class: a hex digit is not
whitespace, lowercasing keeps it a hex digit, lowercasing is idempotent on
it, and its lowercase form is not whitespace either. -/
theorem hex_char_facts (c : Char) (h : isHexDigitA c = true) :
    isPySpace c = false ∧ isHexDigitA (Char.toLower c) = true ∧
      Char.toLower (Char.toLower c) = Char.toLower c ∧
      isPySpace (Char.toLower c) = false := by
  have hb : (48 ≤ c.toNat ∧ c.toNat ≤ 57) ∨ (97 ≤ c.toNat ∧ c.toNat ≤ 102) ∨
      (65 ≤ c.toNat ∧ c.toNat ≤ 70) := by
    unfold isHexDigitA at h
    simp only [Bool.or_eq_true, Bool.and_eq_true, decide_eq_true_eq] at h
    rcases h with (⟨hl, hr⟩ | ⟨hl, hr⟩) | ⟨hl, hr⟩
    · exact Or.inl ⟨Char.le_def.mp hl, Char.le_def.mp hr⟩
    · exact Or.inr (Or.inl ⟨Char.le_def.mp hl, Char.le_def.mp hr⟩)
    · exact Or.inr (Or.inr ⟨Char.le_def.mp hl, Char.le_def.mp hr⟩)
  have hrep : ∃ n, c = Char.ofNat n ∧ ((48 ≤ n ∧ n ≤ 57) ∨ (97 ≤ n ∧ n ≤ 102) ∨
      (65 ≤ n ∧ n ≤ 70)) := ⟨c.toNat, (Char.ofNat_toNat c).symm, hb⟩
  obtain ⟨n, rfl, hb'⟩ := hrep
  rcases hb' with ⟨h1, h2⟩ | ⟨h1, h2⟩ | ⟨h1, h2⟩ <;> interval_cases n <;> decide

/-- dropWhile jumps over a fully satisfying prefix. -/
theorem dropWhile_append_of_all (p : Char → Bool) (w s : List Char)
    (h : ∀ c ∈ w, p c = true) : List.dropWhile p (w ++ s) = List.dropWhile p s := by
  induction w with
  | nil => rfl
  | cons c cs ih =>
    rw [List.cons_append, List.dropWhile_cons, if_pos (h c (List.mem_cons_self c cs))]
    exact ih fun d hd => h d (List.mem_cons_of_mem c hd)

/-- dropWhile stops at a failing head. -/
theorem dropWhile_cons_of_neg (p : Char → Bool) (x : Char) (xs : List Char)
    (h : p x = false) : List.dropWhile p (x :: xs) = x :: xs := by
  rw [List.dropWhile_cons, if_neg (by simp [h])]

/-- Inversion of ADDRESS_PATTERN: a matching string is 0x followed by
exactly 40 hex digits. -/
theorem addressPattern_parts (v : List Char) (hp : addressPattern v = true) :
    ∃ rest, v = '0' :: 'x' :: rest ∧ rest.length = 40 ∧
      ∀ c ∈ rest, isHexDigitA c = true := by
  unfold addressPattern at hp
  split at hp
  · rename_i rest
    simp only [Bool.and_eq_true, beq_iff_eq, List.all_eq_true] at hp
    exact ⟨rest, rfl, hp.1, hp.2⟩
  · cases hp

/-- Evaluation of ADDRESS_PATTERN on a string shaped 0x... -/
theorem addressPattern_cons (rest : List Char) :
    addressPattern ('0' :: 'x' :: rest) =
      (rest.length == 40 && rest.all isHexDigitA) := rfl

/-- str.strip() removes exactly the whitespace padding around a string that
matches ADDRESS_PATTERN (such a string starts with 0 and ends with a hex
digit, neither of which is whitespace). -/
theorem pyStrip_padded (w1 w2 v : List Char)
    (h1 : ∀ c ∈ w1, isPySpace c = true) (h2 : ∀ c ∈ w2, isPySpace c = true)
    (hp : addressPattern v = true) : pyStrip (w1 ++ v ++ w2) = v := by
  obtain ⟨rest, rfl, hlen, hhex⟩ := addressPattern_parts v hp
  have hrne : rest ≠ [] := by
    intro h
    rw [h] at hlen
    cases hlen
  unfold pyStrip
  rw [List.append_assoc, dropWhile_append_of_all isPySpace w1 _ h1,
    List.cons_append, List.cons_append,
    dropWhile_cons_of_neg isPySpace '0' _ (by decide)]
  obtain ⟨y, ys, hyys⟩ : ∃ y ys, rest.reverse = y :: ys := by
    cases hr : rest.reverse with
    | nil => exact absurd (List.reverse_eq_nil_iff.mp hr) hrne
    | cons y ys => exact ⟨y, ys, rfl⟩
  have hy : isPySpace y = false :=
    (hex_char_facts y (hhex y (List.mem_reverse.mp (hyys ▸ List.mem_cons_self y ys)))).1
  have hrevform : ('0' :: 'x' :: (rest ++ w2)).reverse =
      w2.reverse ++ (rest.reverse ++ ['x', '0']) := by
    simp [List.reverse_cons, List.append_assoc]
  rw [hrevform,
    dropWhile_append_of_all isPySpace w2.reverse _
      (fun c hc => h2 c (List.mem_reverse.mp hc)),
    hyys, List.cons_append, dropWhile_cons_of_neg isPySpace y _ hy,
    ← List.cons_append, ← hyys]
  simp

/-- str.strip() is the identity on a string matching ADDRESS_PATTERN. -/
theorem pyStrip_of_pattern (v : List Char) (hp : addressPattern v = true) :
    pyStrip v = v := by
  have h := pyStrip_padded [] [] v (by intro c hc; cases hc) (by intro c hc; cases hc) hp
  simpa using h

/-- Lowercasing preserves ADDRESS_PATTERN and is idempotent on matches. -/
theorem addressPattern_toLower (v : List Char) (hp : addressPattern v = true) :
    addressPattern (toLowerL v) = true ∧ toLowerL (toLowerL v) = toLowerL v := by
  obtain ⟨rest, rfl, hlen, hhex⟩ := addressPattern_parts v hp
  constructor
  · show addressPattern ('0'.toLower :: 'x'.toLower :: rest.map Char.toLower) = true
    rw [show '0'.toLower = '0' from by decide, show 'x'.toLower = 'x' from by decide,
      addressPattern_cons]
    simp only [Bool.and_eq_true, beq_iff_eq, List.all_eq_true]
    refine ⟨by rw [List.length_map, hlen], ?_⟩
    intro x hx
    rcases List.mem_map.mp hx with ⟨y, hy, rfl⟩
    exact (hex_char_facts y (hhex y hy)).2.1
  · show List.map Char.toLower (List.map Char.toLower ('0' :: 'x' :: rest)) =
      List.map Char.toLower ('0' :: 'x' :: rest)
    rw [List.map_map]
    refine List.map_congr_left ?_
    intro a ha
    rcases List.mem_cons.mp ha with rfl | ha
    · decide
    rcases List.mem_cons.mp ha with rfl | ha
    · decide
    · exact (hex_char_facts a (hhex a ha)).2.2.1

/-- Claim C10: normalize_eth_address strips whitespace before validating, so
a whitespace-padded valid mixed-case address is accepted and returned
lowercased without the padding; the function is idempotent on its own
output (hence on stripped strings); and the compliance batch normalizer
_normalize_addresses therefore accepts the padded form too. -/
theorem normalize_eth_address_spec :
    (∀ w1 w2 v, (∀ c ∈ w1, isPySpace c = true) → (∀ c ∈ w2, isPySpace c = true) →
        addressPattern v = true →
        normalize_eth_address (w1 ++ v ++ w2) = some (toLowerL v)) ∧
      (∀ s u, normalize_eth_address s = some u → normalize_eth_address u = some u) ∧
      (∀ w1 w2 v, (∀ c ∈ w1, isPySpace c = true) → (∀ c ∈ w2, isPySpace c = true) →
        addressPattern v = true →
        normalizeAddresses [w1 ++ v ++ w2] = [toLowerL v]) := by
  have hmain : ∀ w1 w2 v, (∀ c ∈ w1, isPySpace c = true) →
      (∀ c ∈ w2, isPySpace c = true) → addressPattern v = true →
      normalize_eth_address (w1 ++ v ++ w2) = some (toLowerL v) := by
    intro w1 w2 v h1 h2 hp
    unfold normalize_eth_address
    rw [pyStrip_padded w1 w2 v h1 h2 hp, if_pos hp]
  refine ⟨hmain, ?_, ?_⟩
  · intro s u h
    unfold normalize_eth_address at h ⊢
    by_cases hp : addressPattern (pyStrip s) = true
    · rw [if_pos hp] at h
      injection h with h
      subst h
      obtain ⟨hpu, hlu⟩ := addressPattern_toLower (pyStrip s) hp
      rw [pyStrip_of_pattern _ hpu, if_pos hpu, hlu]
    · rw [if_neg hp] at h
      cases h
  · intro w1 w2 v h1 h2 hp
    have hvne : v ≠ [] := by
      obtain ⟨rest, rfl, _, _⟩ := addressPattern_parts v hp
      intro hcon
      cases hcon
    have hcond : ¬(w1 = [] ∧ v = [] ∧ w2 = []) := fun hcon => hvne hcon.2.1
    have hstep : normalize_eth_address (w1 ++ (v ++ w2)) = some (toLowerL v) := by
      rw [← List.append_assoc]
      exact hmain w1 w2 v h1 h2 hp
    unfold normalizeAddresses
    simp [List.filterMap_cons, hcond, hstep]

/-- Witness for normalize_eth_address_spec: a concrete mixed-case address
padded with spaces normalizes to its lowercase unpadded form, on which
normalization is idempotent. -/
theorem normalize_eth_address_spec_witness :
    normalize_eth_address ([' ', ' '] ++ addrV ++ [' ']) = some (toLowerL addrV) ∧
      normalize_eth_address (toLowerL addrV) = some (toLowerL addrV) := by
  have hp : normalize_eth_address ([' ', ' '] ++ addrV ++ [' ']) = some (toLowerL addrV) :=
    normalize_eth_address_spec.1 [' ', ' '] [' '] addrV (by decide) (by decide) (by decide)
  exact ⟨hp, normalize_eth_address_spec.2.1 _ _ hp⟩
